import Mathlib

/-!
# Verification of the debounced validated text input component

Shallow embedding of `src/Learn/learn.framerfx/code/TextInput.tsx`.

The component is a React function component.  Its logic consists of:
a mount-time state initializer, two `useEffect` revalidation effects,
and the event handlers `validate`, `setFocus`, `handleInput`,
`updateState` and `handleClear`.  We embed each as a pure Lean function
from (props, state, input ref) to (state, emitted callbacks).

Modelling conventions:
* A JavaScript string value that may be `undefined` (the cleared value,
  or an absent initial value) is modelled as the empty string `""`;
  every place the source reads the value it only tests truthiness
  (where `undefined` and `""` coincide) or compares with `===` against
  another event value.
* Callback invocations (`onValueChange`, `onInputStart`, `onFocus`,
  `onBlur`) are modelled as an emitted list of `Output`s.
* `setTimeout(f, delay * 1000)` is modelled by returning the scheduled
  deferral `some (delay * 1000, value)`; in the trace semantics `run`,
  a scheduled timer firing is an explicit `Ev.fire` event.
* Each handler reads the state current at the moment its event is
  handled.  (In React terms: every event is handled by the closures of
  the latest render.  The only field this idealises is the `focused`
  flag spread from a stale closure by a delayed `updateState`, which no
  property below observes across an interleaved focus change.)
* Times and the `delay` prop (seconds) are rationals.
-/

namespace TextInput

/-- The props of the component that its logic reads.  The source
destructures the `value` prop under the name `initialValue`.
Presentational props (placeholder, password, message, clearable,
disabled, height, width) do not enter the logic and are omitted. -/
structure Props where
  initialValue : String
  required : Bool
  validation : String → Bool
  readOnly : Bool
  delay : ℚ

/-- The `useState` record: `{ value, valid, typing, focused }`. -/
structure InputState where
  value : String
  valid : Bool
  typing : Bool
  focused : Bool
deriving DecidableEq

/-- A callback invocation emitted by a handler, in invocation order. -/
inductive Output where
  | valueChange (value : String) (valid : Bool)
  | inputStart
  | focus (value : String) (valid : Bool)
  | blur (value : String) (valid : Bool)
deriving DecidableEq

/-- JavaScript `a || b` on strings: `a` when truthy (non-empty), else `b`. -/
def jsOr (a b : String) : String :=
  if a = "" then b else a

/-- The source helper
`validate = value => value && value.length > 0 ? validation(value || initialValue) : !required`.
The JS truthiness test and the length test are kept as the conjunction
the source writes. -/
def validate (p : Props) (value : String) : Bool :=
  if value ≠ "" ∧ 0 < value.length then p.validation (jsOr value p.initialValue)
  else !p.required

/-- The validity committed by `updateState`:
`value ? validate(value) : !required`. -/
def commitValid (p : Props) (value : String) : Bool :=
  if value ≠ "" then validate p value else !p.required

/-- Modelled from the spec: the validity rule
`valid = value.length > 0 ? validator(value) : !required`, against which
the source computations are compared. -/
def specValid (p : Props) (value : String) : Bool :=
  if 0 < value.length then p.validation value else !p.required

/-- The mount-time `useState` initializer:
`{ value: initialValue, valid: validation(initialValue), typing: false, focused: false }`. -/
def initState (p : Props) : InputState :=
  { value := p.initialValue
    valid := p.validation p.initialValue
    typing := false
    focused := false }

/-- `updateState(value)`: compare `value` against the `inputValue` ref;
on agreement compute the committed validity, invoke `onValueChange`, and
set `{ ...state, typing: false, value, valid }`; on disagreement bail
without touching state or invoking callbacks. -/
def updateState (p : Props) (state : InputState) (inputValue value : String) :
    InputState × List Output :=
  if value = inputValue then
    let valid := commitValid p value
    ({ value := value, valid := valid, typing := false, focused := state.focused },
     [Output.valueChange value valid])
  else (state, [])

/-- The result of `handleInput`: the new state, the new `inputValue`
ref, the emitted callbacks, and the scheduled timer, if any, as
(milliseconds, captured value) matching `setTimeout(() => updateState(value), delay * 1000)`. -/
structure HandleInputResult where
  state : InputState
  inputValue : String
  outputs : List Output
  deferred : Option (ℚ × String)

/-- `handleInput(event)`: store the value in the `inputValue` ref, run
`onInputStart` on the leading edge of typing, set
`{ ...state, value, typing: true }`, then either schedule
`updateState(value)` after `delay * 1000` milliseconds (when `delay > 0`)
or run it immediately. -/
def handleInput (p : Props) (state : InputState) (value : String) : HandleInputResult :=
  let inputValue := value
  let outs := if state.typing then [] else [Output.inputStart]
  let state1 : InputState := { state with value := value, typing := true }
  if 0 < p.delay then
    { state := state1, inputValue := inputValue, outputs := outs
      deferred := some (p.delay * 1000, value) }
  else
    let r := updateState p state inputValue value
    { state := r.1, inputValue := inputValue, outputs := outs ++ r.2, deferred := none }

/-- `setFocus(focused)`: invoke `onFocus(state.value, state.valid)` or
`onBlur(state.value, state.valid)`, then set `{ ...state, focused }`. -/
def setFocus (state : InputState) (focused : Bool) : InputState × List Output :=
  let out := if focused then Output.focus state.value state.valid
             else Output.blur state.value state.valid
  ({ state with focused := focused }, [out])

/-- `handleClear(event)`: `if (readOnly) return;` else
`setState({ ...state, value: undefined })` (the cleared value is
modelled as `""`). -/
def handleClear (p : Props) (state : InputState) : InputState :=
  if p.readOnly then state else { state with value := "" }

/-- The `useEffect` with dependency `[initialValue]`: sync the
`inputValue` ref with `initialValue` and set
`{ ...state, value: initialValue, valid: validate(state.value) }`.
Returns the new state and the new `inputValue` ref. -/
def initialValueEffect (p : Props) (state : InputState) : InputState × String :=
  ({ state with value := p.initialValue, valid := validate p state.value },
   p.initialValue)

/-- The `useEffect` with dependency `[validation, required]`:
`setState({ ...state, valid: validate(state.value) })`. -/
def revalidateEffect (p : Props) (state : InputState) : InputState :=
  { state with valid := validate p state.value }

/-! ## Trace semantics for the debounce behaviour -/

/-- The component state together with the `inputValue` ref. -/
structure Config where
  state : InputState
  inputValue : String
deriving DecidableEq

/-- The configuration right after mount. -/
def initConfig (p : Props) : Config :=
  { state := initState p, inputValue := p.initialValue }

/-- An event of the keystroke/timer trace: either a keystroke carrying
the new raw value, or the firing of a debounce timer carrying the value
captured when it was scheduled. -/
inductive Ev where
  | key (value : String)
  | fire (value : String)
deriving DecidableEq

/-- One event step.  A keystroke runs `handleInput`; the timers it
schedules appear in the trace as later `Ev.fire` events.  A timer
firing runs `updateState` with its captured value against the current
`inputValue` ref (which `updateState` never modifies). -/
def step (p : Props) (c : Config) : Ev → Config × List Output
  | Ev.key v =>
    let r := handleInput p c.state v
    ({ state := r.state, inputValue := r.inputValue }, r.outputs)
  | Ev.fire v =>
    let r := updateState p c.state c.inputValue v
    ({ state := r.1, inputValue := c.inputValue }, r.2)

/-- Run a trace of events, accumulating the emitted callbacks in order. -/
def run (p : Props) (c : Config) : List Ev → Config × List Output
  | [] => (c, [])
  | e :: evs =>
    let r := step p c e
    let r2 := run p r.1 evs
    (r2.1, r.2 ++ r2.2)

/-- The `onValueChange` invocations among a list of outputs, as
(value, valid) pairs. -/
def valueChanges (outs : List Output) : List (String × Bool) :=
  outs.filterMap fun o => match o with
    | Output.valueChange v b => some (v, b)
    | _ => none

/-- Admissible debounce traces.  `Trace ks fs evs` reads: with the
values `ks` still to be typed and the timers for the values `fs`
already scheduled but not yet fired (oldest first), `evs` is a possible
remaining event order.  It captures exactly the orders a positive
debounce delay can realise when every keystroke arrives within less
than the delay after the previous one:
* keystrokes happen in order, and each appends its timer to the queue;
* timers fire in scheduling order;
* a timer that is not the globally last one fires only after the next
  keystroke has happened (its fire time, keystroke time plus delay, is
  later than the next keystroke), i.e. only while a younger timer is
  already queued behind it;
* the globally last timer fires after everything else.
The lemma `sched_trace` below shows that the chronological interleaving
of any such timed keystroke sequence is an admissible trace. -/
inductive Trace : List String → List String → List Ev → Prop where
  | done : Trace [] [] []
  | key (v : String) {ks fs evs} :
      Trace ks (fs ++ [v]) evs → Trace (v :: ks) fs (Ev.key v :: evs)
  | fireMid (v : String) {ks fs evs} :
      fs ≠ [] → Trace ks fs evs → Trace ks (v :: fs) (Ev.fire v :: evs)
  | fireLast (v : String) {evs} :
      Trace [] [] evs → Trace [] [v] (Ev.fire v :: evs)

/-- The chronological event order generated by the timed keystrokes
`ks` (time in seconds, value), starting with the already scheduled
timers `pending` (fire time, captured value): at each point the
earliest of the next pending timer and the next keystroke happens, and
a keystroke at time `t` schedules its timer at `t + d`.  Ties are
resolved timer-first; under the strict-gap hypotheses used below no tie
affects any property proved here. -/
def sched : List (ℚ × String) → List (ℚ × String) → ℚ → List Ev
  | [], [], _ => []
  | (_, vf) :: ps, [], d => Ev.fire vf :: sched ps [] d
  | [], (tk, vk) :: ks, d => Ev.key vk :: sched [(tk + d, vk)] ks d
  | (tf, vf) :: ps, (tk, vk) :: ks, d =>
    if tf ≤ tk then Ev.fire vf :: sched ps ((tk, vk) :: ks) d
    else Ev.key vk :: sched ((tf, vf) :: ps ++ [(tk + d, vk)]) ks d
termination_by ps ks _ => ps.length + 2 * ks.length
decreasing_by all_goals simp_arith [List.length_append]

/-! ## Concrete instances used by witnesses and counterexamples -/

/-- A length-at-least-three validator, the one of the spec scenario. -/
def vLen3 : String → Bool := fun v => decide (3 ≤ v.length)

/-- Props of the spec scenario: delay 0.25 s, required, validator
`v => v.length >= 3`. -/
def pScenario : Props :=
  { initialValue := "", required := true, validation := vLen3
    readOnly := false, delay := 1/4 }

/-- The scenario keystrokes: "a", then "ab" 100 ms later, then "abc"
100 ms after that. -/
def ksScenario : List (ℚ × String) :=
  [(0, "a"), (1/10, "ab"), (2/10, "abc")]

/-- Keystrokes refuting the unamended last-keystroke-wins property:
values repeat, so a stale timer passes the value comparison. -/
def ksRepeat : List (ℚ × String) :=
  [(0, "a"), (2, "b"), (4, "a"), (8, "b")]

/-- Props for the repeated-values counterexample: delay 5 s. -/
def pRepeat : Props :=
  { initialValue := "", required := true, validation := vLen3
    readOnly := false, delay := 5 }

/-- Props for the mount counterexamples: empty initial value, required,
default validator `v => true`. -/
def pMount : Props :=
  { initialValue := "", required := true, validation := fun _ => true
    readOnly := false, delay := 1/4 }

/-- Props rejecting every value, with required = false. -/
def pReject : Props :=
  { initialValue := "", required := false, validation := fun _ => false
    readOnly := false, delay := 1/4 }

/-- Props for the stale initial-value-effect bug: the value prop has
just changed to "abcdef". -/
def pNewValue : Props :=
  { initialValue := "abcdef", required := false, validation := vLen3
    readOnly := false, delay := 1/4 }

/-- A read-only variant of the scenario props. -/
def pReadOnly : Props :=
  { initialValue := "", required := true, validation := vLen3
    readOnly := true, delay := 1/4 }

/-- A zero-delay variant of the scenario props. -/
def pSync : Props :=
  { initialValue := "", required := true, validation := vLen3
    readOnly := false, delay := 0 }

/-- A negative-delay variant of the scenario props. -/
def pNeg : Props :=
  { initialValue := "", required := true, validation := vLen3
    readOnly := false, delay := -1 }

/-- A sample mid-typing state. -/
def stSample : InputState :=
  { value := "ab", valid := false, typing := true, focused := true }

/-- Empty initial value, not required, default validator `v => true`. -/
def pDefaultEmpty : Props :=
  { initialValue := "", required := false, validation := fun _ => true
    readOnly := false, delay := 1/4 }

/-! ## Helper lemmas -/

theorem length_pos_iff_ne_empty (v : String) : 0 < v.length ↔ v ≠ "" := by
  cases v with
  | mk data => simp [String.length, List.length_pos, String.ext_iff]

theorem validate_eq_specValid (p : Props) (v : String) :
    validate p v = specValid p v := by
  by_cases h : v = ""
  · subst h; simp [validate, specValid]
  · have hl : 0 < v.length := (length_pos_iff_ne_empty v).mpr h
    simp [validate, specValid, h, hl, jsOr]

theorem commitValid_eq_specValid (p : Props) (v : String) :
    commitValid p v = specValid p v := by
  by_cases h : v = ""
  · subst h; simp [commitValid, specValid]
  · simp [commitValid, h, validate_eq_specValid]

theorem valueChanges_append (a b : List Output) :
    valueChanges (a ++ b) = valueChanges a ++ valueChanges b :=
  List.filterMap_append a b _

theorem mem_of_getLast?_eq {α : Type} {l : List α} {a : α}
    (h : l.getLast? = some a) : a ∈ l := by
  obtain ⟨hne, rfl⟩ := List.mem_getLast?_eq_getLast (l := l) (x := a) (by simp [h])
  exact List.getLast_mem hne

theorem getLast?_cons_of_ne_nil {α : Type} {v : α} {l : List α} (h : l ≠ []) :
    (v :: l).getLast? = l.getLast? := by
  obtain ⟨b, t, rfl⟩ := List.exists_cons_of_ne_nil h
  exact List.getLast?_cons_cons

theorem run_cons (p : Props) (c : Config) (e : Ev) (evs : List Ev) :
    run p c (e :: evs) =
      ((run p (step p c e).1 evs).1, (step p c e).2 ++ (run p (step p c e).1 evs).2) := rfl

theorem step_key (p : Props) (hd : 0 < p.delay) (c : Config) (v : String) :
    step p c (Ev.key v) =
      ({ state := { c.state with value := v, typing := true }, inputValue := v },
       if c.state.typing then [] else [Output.inputStart]) := by
  simp [step, handleInput, hd]

theorem step_fire_match (p : Props) (c : Config) (v : String) (h : v = c.inputValue) :
    step p c (Ev.fire v) =
      ({ state := { value := v, valid := commitValid p v, typing := false
                    focused := c.state.focused }
         inputValue := c.inputValue },
       [Output.valueChange v (commitValid p v)]) := by
  simp [step, updateState, h]

theorem step_fire_stale (p : Props) (c : Config) (v : String) (h : v ≠ c.inputValue) :
    step p c (Ev.fire v) = (c, []) := by
  simp [step, updateState, h]

/-! ## Claim theorems -/

/-- Claim C1: when a debounce firing matches the current pending edit
(the `inputValue` ref), `updateState` commits
`valid = value.length > 0 ? validator(value) : !required`, sets
typing to false, updates value and valid, and invokes `onValueChange`
with (value, valid); at the empty string the committed validity is
the negation of the required flag, for every validator. -/
theorem commit_validity_rule (p : Props) (state : InputState)
    (inputValue value : String) (h : value = inputValue) :
    updateState p state inputValue value =
      ({ value := value, valid := specValid p value, typing := false
         focused := state.focused },
       [Output.valueChange value (specValid p value)]) ∧
    (value = "" → commitValid p value = !p.required) ∧
    (value ≠ "" → commitValid p value = p.validation value) := by
  refine ⟨?_, ?_, ?_⟩
  · simp [updateState, h, commitValid_eq_specValid]
  · intro he; subst he; simp [commitValid]
  · intro hne
    rw [commitValid_eq_specValid]
    simp [specValid, (length_pos_iff_ne_empty value).mpr hne]

/-- Witness for C1 at concrete inputs: a matching firing for "ab"
(length below 3, hence invalid under the scenario validator), plus the
empty-string rule under required = true (false) and required = false
(true). -/
theorem commit_validity_rule_witness :
    updateState pScenario stSample "ab" "ab" =
      ({ value := "ab", valid := false, typing := false, focused := true },
       [Output.valueChange "ab" false]) ∧
    commitValid pScenario "" = false ∧
    commitValid pReject "" = true ∧
    commitValid pScenario "abc" = true := by
  refine ⟨?_, ?_, ?_, ?_⟩
  · exact ((commit_validity_rule pScenario stSample "ab" "ab" rfl).1).trans (by decide)
  · exact ((commit_validity_rule pScenario stSample "" "" rfl).2.1 rfl).trans (by decide)
  · exact ((commit_validity_rule pReject stSample "" "" rfl).2.1 rfl).trans (by decide)
  · exact ((commit_validity_rule pScenario stSample "abc" "abc" rfl).2.2
      (by decide)).trans (by decide)

/-- Claim C3: a debounce firing whose captured value differs from the
current pending edit is discarded atomically: the state
(value, valid, typing, focused) is unchanged and no callback is
invoked. -/
theorem stale_fire_discarded (p : Props) (state : InputState)
    (inputValue value : String) (h : value ≠ inputValue) :
    updateState p state inputValue value = (state, []) ∧
    ∀ c : Config, c.inputValue = inputValue → step p c (Ev.fire value) = (c, []) := by
  refine ⟨by simp [updateState, h], fun c hc => ?_⟩
  exact step_fire_stale p c value (by rw [hc]; exact h)

/-- Witness for C3: the timer for "ab" fires after the user has typed
"abc"; nothing happens. -/
theorem stale_fire_discarded_witness :
    updateState pScenario stSample "abc" "ab" = (stSample, []) ∧
    step pScenario { state := stSample, inputValue := "abc" } (Ev.fire "ab")
      = ({ state := stSample, inputValue := "abc" }, []) := by
  have h := stale_fire_discarded pScenario stSample "abc" "ab" (by decide)
  exact ⟨h.1, h.2 { state := stSample, inputValue := "abc" } rfl⟩

/-- Claim C4, counterexample: the claimed invariant (valid always
equals the validator/required rule applied to the current value) fails
in a reachable state, namely right after mount: with an empty initial
value, required = true and the default validator, mount computes
`valid = validation(initialValue) = true`, but the rule yields
`!required = false` for the empty value. -/
theorem valid_invariant_counterexample :
    (initState pMount).value = "" ∧ pMount.required = true ∧
    (initState pMount).valid = true ∧
    specValid pMount (initState pMount).value = false := by decide

/-- Claim C4, amended: the validity rule does hold for the states
produced by a matching debounce commit and by the required/validator
revalidation effect (mount, keystrokes in flight, clear, and the
initial-value prop effect can leave valid stale). -/
theorem valid_invariant_amended (p : Props) (state : InputState)
    (inputValue value : String) :
    (value = inputValue →
      (updateState p state inputValue value).1.valid =
        specValid p (updateState p state inputValue value).1.value) ∧
    (revalidateEffect p state).valid = specValid p (revalidateEffect p state).value := by
  constructor
  · intro h; simp [updateState, h, commitValid_eq_specValid]
  · simp [revalidateEffect, validate_eq_specValid]

/-- Witness for C4 (amended) at a concrete matching commit. -/
theorem valid_invariant_witness :
    (updateState pScenario stSample "ab" "ab").1.valid =
      specValid pScenario (updateState pScenario stSample "ab" "ab").1.value ∧
    (revalidateEffect pScenario stSample).valid =
      specValid pScenario (revalidateEffect pScenario stSample).value :=
  ⟨(valid_invariant_amended pScenario stSample "ab" "ab").1 rfl,
   (valid_invariant_amended pScenario stSample "ab" "ab").2⟩

/-- Claim C5 (code bug): the effect on a changed value prop installs
the new value but computes the committed validity from the previous
state value, not from the new one.  With previous value "ab", new
value prop "abcdef" and validator (length at least 3), the effect
produces value = "abcdef" with valid = validator("ab") = false,
whereas the claim (and the validity rule) require
valid = validator("abcdef") = true. -/
theorem initial_value_effect_stale_validation :
    (initialValueEffect pNewValue stSample).1.value = "abcdef" ∧
    (initialValueEffect pNewValue stSample).1.valid = false ∧
    pNewValue.validation "abcdef" = true ∧
    specValid pNewValue "abcdef" = true ∧
    (initialValueEffect pNewValue stSample).2 = "abcdef" := by decide

/-- Claim C6: when the required flag or the validator changes, the
revalidation effect recomputes valid by the rule (new validator on a
non-empty current value, negated new required flag on an empty one –
that is `specValid` applied to the current value) and leaves the value
unchanged; the effect is a plain synchronous state update with no
scheduled deferral. -/
theorem revalidate_on_prop_change (p : Props) (state : InputState) :
    (revalidateEffect p state).value = state.value ∧
    (revalidateEffect p state).valid = specValid p state.value ∧
    (revalidateEffect p state).typing = state.typing ∧
    (revalidateEffect p state).focused = state.focused := by
  refine ⟨rfl, ?_, rfl, rfl⟩
  simp [revalidateEffect, validate_eq_specValid]

/-- Claim C7: `handleClear` is a no-op when readOnly is true, and
otherwise resets the value to empty leaving valid, typing and focused
unchanged (validity is not recomputed here). -/
theorem clear_contract (p : Props) (state : InputState) :
    (p.readOnly = true → handleClear p state = state) ∧
    (p.readOnly = false →
      handleClear p state =
        { value := "", valid := state.valid, typing := state.typing
          focused := state.focused }) := by
  constructor <;> intro h <;> simp [handleClear, h]

/-- Witness for C7: clear under read-only props leaves the sample
state unchanged; clear under writable props empties only the value. -/
theorem clear_contract_witness :
    handleClear pReadOnly stSample = stSample ∧
    handleClear pScenario stSample =
      { value := "", valid := stSample.valid, typing := stSample.typing
        focused := stSample.focused } :=
  ⟨(clear_contract pReadOnly stSample).1 rfl,
   (clear_contract pScenario stSample).2 rfl⟩

/-- Claim C8: `setFocus true` invokes `onFocus(value, valid)` and only
sets the focused flag; `setFocus false` invokes `onBlur(value, valid)`
and only clears it; a focus followed by a blur with no intervening
edit invokes the two callbacks with the identical (value, valid)
pair. -/
theorem focus_contract (state : InputState) :
    setFocus state true =
      ({ state with focused := true }, [Output.focus state.value state.valid]) ∧
    setFocus state false =
      ({ state with focused := false }, [Output.blur state.value state.valid]) ∧
    (setFocus (setFocus state true).1 false).2 =
      [Output.blur state.value state.valid] := by
  refine ⟨by simp [setFocus], by simp [setFocus], by simp [setFocus]⟩

/-- Claim C9, counterexample: mounting with initial value "" and
required = false does not give valid = true for every validator: the
initializer calls `validation(initialValue)` directly, so a validator
rejecting the empty string yields valid = false. -/
theorem initial_valid_counterexample :
    pReject.initialValue = "" ∧ pReject.required = false ∧
    (initState pReject).valid = false := by decide

/-- Claim C9, amended: mount sets `valid = validation(initialValue)`;
hence a component mounted with initial value "" and required = false
starts with valid = true for every validator accepting the empty
string (the default validator in particular). -/
theorem initial_valid_amended (f : String → Bool) (ro : Bool) (d : ℚ)
    (hf : f "" = true) :
    (initState { initialValue := "", required := false, validation := f
                 readOnly := ro, delay := d }).valid = true ∧
    ∀ p : Props, (initState p).valid = p.validation p.initialValue :=
  ⟨hf, fun _ => rfl⟩

/-- Witness for C9 (amended) with the default validator. -/
theorem initial_valid_witness : (initState pDefaultEmpty).valid = true :=
  (initial_valid_amended (fun _ => true) false (1/4) rfl).1

/-- Claim C10: `handleInput` takes the synchronous path exactly when
the delay is non-positive (not only when it is zero): the value just
written to the `inputValue` ref always matches, so the commit happens
in the same event; for every positive delay the commit is instead
deferred as a timer of delay * 1000 milliseconds capturing the
value. -/
theorem sync_path_nonpositive_delay (p : Props) (state : InputState) (value : String) :
    (p.delay ≤ 0 →
      (handleInput p state value).deferred = none ∧
      (handleInput p state value).inputValue = value ∧
      (handleInput p state value).state =
        { value := value, valid := commitValid p value, typing := false
          focused := state.focused } ∧
      valueChanges (handleInput p state value).outputs =
        [(value, commitValid p value)]) ∧
    (0 < p.delay →
      (handleInput p state value).deferred = some (p.delay * 1000, value) ∧
      valueChanges (handleInput p state value).outputs = []) := by
  constructor
  · intro h
    have h' : ¬ 0 < p.delay := not_lt.mpr h
    refine ⟨?_, ?_, ?_, ?_⟩ <;>
      cases hst : state.typing <;>
        simp [handleInput, h', updateState, valueChanges, hst]
  · intro h
    refine ⟨?_, ?_⟩ <;>
      cases hst : state.typing <;>
        simp [handleInput, h, valueChanges, hst]

/-- Witness for C10: a strictly negative delay (-1) commits
synchronously, while the scenario delay (0.25) schedules a timer and
commits nothing yet. -/
theorem sync_path_witness :
    (handleInput pNeg stSample "abc").deferred = none ∧
    valueChanges (handleInput pNeg stSample "abc").outputs = [("abc", true)] ∧
    (handleInput pScenario stSample "abc").deferred =
      some (pScenario.delay * 1000, "abc") ∧
    valueChanges (handleInput pScenario stSample "abc").outputs = [] := by
  have h1 := (sync_path_nonpositive_delay pNeg stSample "abc").1 (by norm_num [pNeg])
  have h2 := (sync_path_nonpositive_delay pScenario stSample "abc").2
    (by norm_num [pScenario])
  refine ⟨h1.1, ?_, h2.1, h2.2⟩
  rw [h1.2.2.2]
  decide

/-! ## The debounce trace lemmas for claim C2 -/

/-- Running any admissible debounce trace:
if the values of the pending timers (oldest first) end with the
current `inputValue` and the values of pending timers and upcoming
keystrokes are pairwise distinct, the only commit of the whole trace
is the one of the globally last keystroke value. -/
theorem trace_run (p : Props) (hd : 0 < p.delay) :
    ∀ {ks fs evs}, Trace ks fs evs →
    ∀ c : Config,
    (fs ≠ [] → fs.getLast? = some c.inputValue) →
    (fs ++ ks).Nodup →
    valueChanges (run p c evs).2 =
      (match (fs ++ ks).getLast? with
       | none => []
       | some v => [(v, commitValid p v)]) := by
  intro ks fs evs h
  induction h with
  | done =>
    intro c _ _
    simp [run, valueChanges]
  | key v htr ih =>
    rename_i ks fs evs
    intro c h1 h2
    have hassoc : fs ++ v :: ks = (fs ++ [v]) ++ ks := by simp
    rw [hassoc] at h2 ⊢
    rw [run_cons, step_key p hd c v, valueChanges_append]
    have hvc : valueChanges (if c.state.typing then [] else [Output.inputStart]) = [] := by
      cases c.state.typing <;> simp [valueChanges]
    rw [hvc, List.nil_append]
    exact ih { state := { c.state with value := v, typing := true }, inputValue := v }
      (fun _ => List.getLast?_concat fs) h2
  | fireMid v hne htr ih =>
    rename_i ks fs evs
    intro c h1 h2
    have hfs : fs.getLast? = some c.inputValue := by
      have := h1 (by simp)
      rwa [getLast?_cons_of_ne_nil hne] at this
    have hmem : c.inputValue ∈ fs := mem_of_getLast?_eq hfs
    have hcons : (v :: fs) ++ ks = v :: (fs ++ ks) := List.cons_append v fs ks
    rw [hcons] at h2 ⊢
    have hnotin : v ∉ fs ++ ks := (List.nodup_cons.mp h2).1
    have hv : v ≠ c.inputValue := by
      intro hEq
      exact hnotin (hEq ▸ List.mem_append_left ks hmem)
    rw [run_cons, step_fire_stale p c v hv, List.nil_append]
    rw [ih c (fun _ => hfs) (List.nodup_cons.mp h2).2]
    have hgl : (v :: (fs ++ ks)).getLast? = (fs ++ ks).getLast? :=
      getLast?_cons_of_ne_nil (by simp [hne])
    rw [hgl]
  | fireLast v htr ih =>
    intro c h1 _
    have hv : v = c.inputValue := by
      have := h1 (by simp)
      simpa using this
    rw [run_cons, step_fire_match p c v hv, valueChanges_append]
    rw [ih _ (by simp) (by simp)]
    simp [valueChanges]

/-- The chronological interleaving of a strictly increasing keystroke
sequence whose consecutive gaps are below the delay, together with
pending timers that are strictly increasing, all due before the next
keystroke would have been typed for less than the delay (so the next
keystroke precedes the last pending timer) and compatible with the
next keystroke timer, is an admissible debounce trace. -/
theorem sched_trace :
    ∀ (pending ks : List (ℚ × String)) (d : ℚ),
    List.Chain' (fun a b => a.1 < b.1) pending →
    List.Chain' (fun a b => a.1 < b.1 ∧ b.1 < a.1 + d) ks →
    (∀ x ∈ pending, ∀ y ∈ ks.head?, x.1 < y.1 + d) →
    (∀ x ∈ pending.getLast?, ∀ y ∈ ks.head?, y.1 < x.1) →
    Trace (ks.map Prod.snd) (pending.map Prod.snd) (sched pending ks d) := by
  intro pending ks d
  induction pending, ks, d using sched.induct with
  | case1 d =>
    intro _ _ _ _
    rw [sched]
    exact Trace.done
  | case2 tf vf ps d ih =>
    intro hp _ _ _
    rw [sched]
    match ps, hp with
    | [], _ =>
      rw [sched]
      exact Trace.fireLast vf Trace.done
    | q :: ps', hp =>
      exact Trace.fireMid vf (by simp)
        (ih (hp.tail) (List.chain'_nil) (by simp) (by simp))
  | case3 tk vk ks d ih =>
    intro _ hk _ _
    rw [sched]
    have hrel : ∀ y ∈ ks.head?, (tk, vk).1 < y.1 ∧ y.1 < (tk, vk).1 + d :=
      (List.chain'_cons'.mp hk).1
    refine Trace.key vk ?_
    show Trace (ks.map Prod.snd) ([(tk + d, vk)].map Prod.snd) (sched [(tk + d, vk)] ks d)
    exact ih (by simp) (List.chain'_cons'.mp hk).2
      (by
        intro x hx y hy
        simp only [List.mem_singleton] at hx
        subst hx
        have := (hrel y hy).1
        simpa using by linarith)
      (by
        intro x hx y hy
        simp only [List.getLast?_singleton, Option.mem_def, Option.some.injEq] at hx
        subst hx
        exact (hrel y hy).2)
  | case4 tf vf ps tk vk ks d hle ih =>
    intro hp hk ha hb
    rw [sched, if_pos hle]
    match ps, hp, ha, hb with
    | [], _, _, hb =>
      exfalso
      have := hb (tf, vf) (by simp) (tk, vk) (by simp)
      exact absurd hle (not_le.mpr this)
    | q :: ps', hp, ha, hb =>
      refine Trace.fireMid vf (by simp) ?_
      exact ih hp.tail hk
        (fun x hx y hy => ha x (List.mem_cons_of_mem _ hx) y hy)
        (by
          intro x hx y hy
          refine hb x ?_ y hy
          rwa [List.getLast?_cons_cons])
  | case5 tf vf ps tk vk ks d hle ih =>
    intro hp hk ha hb
    rw [sched, if_neg hle]
    have hmap : ((tf, vf) :: ps ++ [(tk + d, vk)]).map Prod.snd =
        ((tf, vf) :: ps).map Prod.snd ++ [vk] := by simp
    refine Trace.key vk ?_
    rw [← hmap]
    have hheadrel : ∀ y ∈ ks.head?, (tk, vk).1 < y.1 ∧ y.1 < (tk, vk).1 + d :=
      (List.chain'_cons'.mp hk).1
    refine ih ?_ (List.chain'_cons'.mp hk).2 ?_ ?_
    · rw [List.chain'_append]
      refine ⟨hp, List.chain'_singleton _, ?_⟩
      intro x hx y hy
      simp only [List.head?_cons, Option.mem_def, Option.some.injEq] at hy
      subst hy
      exact ha x (mem_of_getLast?_eq hx) (tk, vk) (by simp)
    · intro x hx y hy
      have hlt : (tk, vk).1 < y.1 := (hheadrel y hy).1
      rcases List.mem_append.mp hx with hx | hx
      · have := ha x hx (tk, vk) (by simp)
        simp only at this
        linarith
      · simp only [List.mem_singleton] at hx
        subst hx
        simpa using by linarith
    · intro x hx y hy
      rw [List.getLast?_concat] at hx
      simp only [Option.mem_def, Option.some.injEq] at hx
      subst hx
      have := (hheadrel y hy).2
      simpa using this

/-- Claim C2, amended: for every non-empty sequence of keystrokes with
pairwise distinct values, each typed within less than the (positive)
debounce delay of the previous one, running the chronological
interleaving of keystrokes and timer firings invokes `onValueChange`
exactly once, with the last keystroke value and its committed
validity; in particular no intermediate value is ever committed.
(The distinctness hypothesis is forced: the staleness check compares
by value, see the counterexample.) -/
theorem debounce_last_keystroke_wins (p : Props) (ks : List (ℚ × String))
    (hd : 0 < p.delay) (hne : ks ≠ [])
    (hchain : List.Chain' (fun a b => a.1 < b.1 ∧ b.1 < a.1 + p.delay) ks)
    (hnodup : (ks.map Prod.snd).Nodup) :
    valueChanges (run p (initConfig p) (sched [] ks p.delay)).2 =
      [((ks.getLast hne).2, commitValid p (ks.getLast hne).2)] := by
  have htr : Trace (ks.map Prod.snd) [] (sched [] ks p.delay) := by
    have h := sched_trace [] ks p.delay List.chain'_nil hchain
      (by simp) (by simp)
    simpa using h
  have hrun := trace_run p hd htr (initConfig p) (by simp) (by simpa using hnodup)
  rw [hrun]
  have hmapne : ks.map Prod.snd ≠ [] := by simpa using hne
  have hgl : (ks.map Prod.snd).getLast? = some ((ks.getLast hne).2) := by
    rw [List.getLast?_eq_getLast _ hmapne]
    rw [List.getLast_map Prod.snd ks hmapne]
  simp only [List.nil_append, hgl]

/-- Witness for C2 at the spec scenario: delay 0.25 s, required, the
length-three validator, keystrokes "a", "ab", "abc" separated by
0.1 s; the callback fires exactly once, with ("abc", true). -/
theorem debounce_scenario_witness :
    valueChanges (run pScenario (initConfig pScenario)
      (sched [] ksScenario pScenario.delay)).2 = [("abc", true)] := by
  have h := debounce_last_keystroke_wins pScenario ksScenario
    (by norm_num [pScenario])
    (by simp [ksScenario])
    (by norm_num [pScenario, ksScenario, List.chain'_cons, List.chain'_singleton])
    (by simp [ksScenario])
  rw [h]
  decide

/-- Claim C2, counterexample to the unamended statement: keystrokes
"a", "b", "a", "b" at 0 s, 2 s, 4 s, 8 s with delay 5 s satisfy the
within-less-than-the-delay discipline, yet the timer of the first "a"
fires after the third keystroke has restored the text to "a", so the
value comparison passes and ("a", false) is committed, although the
last keystroke value is "b": an intermediate value is validated and
committed. -/
theorem debounce_repeat_counterexample :
    List.Chain' (fun a b => a.1 < b.1 ∧ b.1 < a.1 + pRepeat.delay) ksRepeat ∧
    (ksRepeat.map Prod.snd).getLast? = some "b" ∧
    ("a", false) ∈ valueChanges (run pRepeat (initConfig pRepeat)
      (sched [] ksRepeat pRepeat.delay)).2 := by
  refine ⟨by norm_num [pRepeat, ksRepeat, List.chain'_cons, List.chain'_singleton],
    by decide, ?_⟩
  have hs : sched [] ksRepeat pRepeat.delay =
      [Ev.key "a", Ev.key "b", Ev.key "a", Ev.fire "a", Ev.fire "b", Ev.key "b",
       Ev.fire "a", Ev.fire "b"] := by
    norm_num [sched, ksRepeat, pRepeat]
  rw [hs]
  decide

end TextInput
